import Mathlib

/-!
Verification of the cryptographic-identity core of the Sentinel-iov wallet SDK:
a shallow embedding of the BIP39 mnemonic codec / validator / seed deriver and
of the `UserProfile` keyring lifecycle, together with proofs of the documented
properties (round-trips, length gates, validation order, locking semantics,
signature composition and store persistence).
-/

namespace IovCore

/-! ### Bit-string utilities

Byte sequences are modelled as `List Nat` (each element `< 256`); bit strings
as `List Bool`, most significant bit first, matching the big-endian bit order
of the BIP39 algorithm. -/

/-- The value of a most-significant-bit-first bit string. -/
def bitsToNat (bits : List Bool) : Nat :=
  bits.foldl (fun a b => 2 * a + (if b then 1 else 0)) 0

/-- The `w`-bit most-significant-bit-first representation of `n % 2^w`. -/
def natToBitsBE : Nat → Nat → List Bool
  | 0, _ => []
  | w + 1, n => n.testBit w :: natToBitsBE w n

/-- The `w`-byte big-endian representation of `n % 256^w`. -/
def natToBytesBE : Nat → Nat → List Nat
  | 0, _ => []
  | w + 1, n => (n / 256 ^ w) % 256 :: natToBytesBE w n

/-- Bits of a byte sequence, 8 bits per byte, most significant first. -/
def bytesToBits (l : List Nat) : List Bool :=
  (l.map (natToBitsBE 8)).flatten

/-- Fuel-driven worker for `chunk`: structural recursion on the fuel so that
the function reduces inside kernel computations. -/
def chunkFuel : Nat → Nat → List α → List (List α)
  | 0, _, _ => []
  | _ + 1, _, [] => []
  | fuel + 1, n, x :: xs => (x :: xs).take n :: chunkFuel fuel n ((x :: xs).drop n)

/-- Partition a list into consecutive chunks of `n` elements (the last chunk
may be shorter when `n` does not divide the length). -/
def chunk (n : Nat) (l : List α) : List (List α) :=
  if n = 0 then [] else chunkFuel l.length n l

theorem chunkFuel_nil (fuel n : Nat) : chunkFuel fuel n ([] : List α) = [] := by
  cases fuel <;> rfl

theorem chunkFuel_congr (n : Nat) (hn : n ≠ 0) :
    ∀ f1 f2 (l : List α), l.length ≤ f1 → l.length ≤ f2 →
      chunkFuel f1 n l = chunkFuel f2 n l := by
  intro f1
  induction f1 with
  | zero =>
    intro f2 l h1 _
    have : l = [] := List.length_eq_zero.mp (Nat.le_zero.mp h1)
    subst this
    simp [chunkFuel_nil]
  | succ k ih =>
    intro f2 l h1 h2
    cases l with
    | nil => simp [chunkFuel_nil]
    | cons x xs =>
      cases f2 with
      | zero => simp at h2
      | succ k2 =>
        simp only [chunkFuel]
        congr 1
        apply ih
        · simp only [List.length_drop, List.length_cons] at *
          omega
        · simp only [List.length_drop, List.length_cons] at *
          omega

theorem chunk_nil (n : Nat) : chunk n ([] : List α) = [] := by
  simp [chunk, chunkFuel_nil]

theorem chunk_cons (n : Nat) (l : List α) (hn : n ≠ 0) (hl : l ≠ []) :
    chunk n l = l.take n :: chunk n (l.drop n) := by
  obtain ⟨x, xs, rfl⟩ := List.exists_cons_of_ne_nil hl
  simp only [chunk, if_neg hn]
  simp only [List.length_cons, chunkFuel]
  congr 1
  apply chunkFuel_congr n hn
  · simp only [List.length_drop, List.length_cons]
    omega
  · exact Nat.le_refl _

theorem length_natToBitsBE (w n : Nat) : (natToBitsBE w n).length = w := by
  induction w generalizing n with
  | zero => rfl
  | succ k ih => simp [natToBitsBE, ih]

theorem length_natToBytesBE (w n : Nat) : (natToBytesBE w n).length = w := by
  induction w generalizing n with
  | zero => rfl
  | succ k ih => simp [natToBytesBE, ih]

theorem length_bytesToBits (l : List Nat) : (bytesToBits l).length = 8 * l.length := by
  induction l with
  | nil => rfl
  | cons b t ih =>
    simp only [bytesToBits, List.map_cons, List.flatten_cons, List.length_append,
      length_natToBitsBE, List.length_cons] at ih ⊢
    omega

theorem bitsToNat_foldl (l : List Bool) (a : Nat) :
    l.foldl (fun a b => 2 * a + (if b then 1 else 0)) a
      = a * 2 ^ l.length + l.foldl (fun a b => 2 * a + (if b then 1 else 0)) 0 := by
  induction l generalizing a with
  | nil => simp
  | cons b t ih =>
    simp only [List.foldl_cons, List.length_cons]
    rw [ih (2 * a + if b then 1 else 0), ih (2 * 0 + if b then 1 else 0)]
    ring

theorem bitsToNat_cons (b : Bool) (t : List Bool) :
    bitsToNat (b :: t) = (if b then 1 else 0) * 2 ^ t.length + bitsToNat t := by
  simp only [bitsToNat, List.foldl_cons]
  rw [bitsToNat_foldl]
  ring_nf

theorem bitsToNat_lt (l : List Bool) : bitsToNat l < 2 ^ l.length := by
  induction l with
  | nil => simp [bitsToNat]
  | cons b t ih =>
    rw [bitsToNat_cons]
    simp only [List.length_cons, pow_succ]
    rcases b with _ | _ <;> simp <;> omega

theorem bitsToNat_natToBitsBE (w n : Nat) : bitsToNat (natToBitsBE w n) = n % 2 ^ w := by
  induction w generalizing n with
  | zero => simp [natToBitsBE, bitsToNat, Nat.mod_one]
  | succ k ih =>
    rw [natToBitsBE, bitsToNat_cons, length_natToBitsBE, ih]
    rw [Nat.testBit_to_div_mod]
    have h2 : 2 ^ (k + 1) = 2 ^ k * 2 := by ring
    rw [h2, Nat.mod_mul]
    by_cases h : n / 2 ^ k % 2 = 1 <;> simp [h] <;> omega

theorem natToBitsBE_mod (w n : Nat) : natToBitsBE w (n % 2 ^ w) = natToBitsBE w n := by
  induction w generalizing n with
  | zero => rfl
  | succ k ih =>
    simp only [natToBitsBE, List.cons.injEq]
    refine ⟨by simp [Nat.testBit_mod_two_pow], ?_⟩
    rw [← ih (n % 2 ^ (k + 1)), ← ih n]
    congr 1
    exact Nat.mod_mod_of_dvd n (pow_dvd_pow 2 (Nat.le_succ k))

theorem natToBitsBE_bitsToNat (l : List Bool) : natToBitsBE l.length (bitsToNat l) = l := by
  induction l with
  | nil => rfl
  | cons b t ih =>
    rw [bitsToNat_cons]
    simp only [List.length_cons, natToBitsBE, List.cons.injEq]
    have hlt := bitsToNat_lt t
    have h2pos : 0 < 2 ^ t.length := Nat.pos_pow_of_pos _ (by omega)
    have hdiv : ((if b then 1 else 0) * 2 ^ t.length + bitsToNat t) / 2 ^ t.length
        = (if b then 1 else 0) := by
      rw [add_comm, mul_comm, Nat.add_mul_div_left _ _ h2pos, Nat.div_eq_of_lt hlt, zero_add]
    have hmod : ((if b then 1 else 0) * 2 ^ t.length + bitsToNat t) % 2 ^ t.length
        = bitsToNat t := by
      rw [add_comm, mul_comm, Nat.add_mul_mod_self_left]
      exact Nat.mod_eq_of_lt hlt
    refine ⟨?_, ?_⟩
    · rw [Nat.testBit_to_div_mod, hdiv]
      rcases b with _ | _ <;> simp
    · rw [← natToBitsBE_mod, hmod, ih]

/-- Joining the chunks of a list recovers the list. -/
theorem flatten_chunk (n : Nat) (hn : n ≠ 0) (l : List α) : (chunk n l).flatten = l := by
  by_cases hl : l = []
  · subst hl
    simp [chunk_nil]
  · rw [chunk_cons n l hn hl]
    have ih : (chunk n (l.drop n)).flatten = l.drop n := flatten_chunk n hn (l.drop n)
    simp [ih]
termination_by l.length
decreasing_by
  have : 0 < l.length := List.length_pos.mpr hl
  simp only [List.length_drop]
  omega

/-- Every chunk has length `n` when `n` divides the list length. -/
theorem chunk_length_of_dvd (n : Nat) (hn : n ≠ 0) (l : List α) (hdvd : n ∣ l.length) :
    ∀ g ∈ chunk n l, g.length = n := by
  by_cases hl : l = []
  · subst hl
    simp [chunk_nil]
  · rw [chunk_cons n l hn hl]
    intro g hg
    have hpos : 0 < l.length := List.length_pos.mpr hl
    have hlen : n ≤ l.length := Nat.le_of_dvd hpos hdvd
    rcases List.mem_cons.mp hg with hg | hg
    · subst hg
      simp only [List.length_take]
      omega
    · have hdvd' : n ∣ (l.drop n).length := by
        simp only [List.length_drop]
        exact Nat.dvd_sub' hdvd dvd_rfl
      exact chunk_length_of_dvd n hn (l.drop n) hdvd' g hg
termination_by l.length
decreasing_by
  have : 0 < l.length := List.length_pos.mpr hl
  simp only [List.length_drop]
  omega

/-- Chunking the concatenation of uniform length-`n` pieces recovers the pieces. -/
theorem chunk_flatten_uniform (n : Nat) (hn : n ≠ 0) (ls : List (List α))
    (h : ∀ g ∈ ls, g.length = n) : chunk n ls.flatten = ls := by
  induction ls with
  | nil => simp [chunk_nil]
  | cons g t ih =>
    have hg : g.length = n := h g (by simp)
    have hgne : g ++ t.flatten ≠ [] := by
      intro hcon
      have := congrArg List.length hcon
      simp [hg] at this
      omega
    simp only [List.flatten_cons]
    rw [chunk_cons n _ hn hgne, List.take_left' hg, List.drop_left' hg]
    rw [ih (fun g hgm => h g (by simp [hgm]))]

/-! ### SHA-256

The BIP39 checksum hash. The round constants are computed, as in the FIPS 180-4
definition, from the fractional parts of the square roots (initial hash value)
and cube roots (round constants) of the first primes. -/

/-- Primality by trial division. -/
def isPrime (n : Nat) : Bool :=
  decide (2 ≤ n) && (List.range (n - 2)).all (fun i => n % (i + 2) != 0)

/-- The first `k` primes (all needed primes are below 512). -/
def firstPrimes (k : Nat) : List Nat :=
  ((List.range 512).filter isPrime).take k

/-- Bounded binary search: the largest `x` with `f x ≤ n`, assuming
`f lo ≤ n < f hi` and `f` monotone. -/
def rootAux (f : Nat → Nat) (n : Nat) : Nat → Nat → Nat → Nat
  | 0, lo, _ => lo
  | fuel + 1, lo, hi =>
    if hi ≤ lo + 1 then lo
    else
      let mid := (lo + hi) / 2
      if f mid ≤ n then rootAux f n fuel mid hi
      else rootAux f n fuel lo mid

/-- Integer square root by binary search. -/
def isqrt (n : Nat) : Nat := rootAux (fun x => x * x) n 512 0 (n + 2)

/-- Integer cube root by binary search. -/
def cbrt (n : Nat) : Nat := rootAux (fun x => x * x * x) n 512 0 (n + 2)

/-- SHA-256 round constants: first 32 bits of the fractional parts of the cube
roots of the first 64 primes. -/
def sha256K : List Nat :=
  (firstPrimes 64).map (fun p => cbrt (p * 2 ^ 96) % 2 ^ 32)

/-- SHA-256 initial hash: first 32 bits of the fractional parts of the square
roots of the first 8 primes. -/
def sha256H0 : List Nat :=
  (firstPrimes 8).map (fun p => isqrt (p * 2 ^ 64) % 2 ^ 32)

/-- Working state of the SHA-2 compression function. -/
structure Hash8 where
  a : Nat
  b : Nat
  c : Nat
  d : Nat
  e : Nat
  f : Nat
  g : Nat
  h : Nat

/-- 32-bit right rotation. -/
def rotr32 (n x : Nat) : Nat :=
  ((x >>> n) ||| (x <<< (32 - n))) % 2 ^ 32

def sha256SmallSigma0 (x : Nat) : Nat := rotr32 7 x ^^^ rotr32 18 x ^^^ (x >>> 3)

def sha256SmallSigma1 (x : Nat) : Nat := rotr32 17 x ^^^ rotr32 19 x ^^^ (x >>> 10)

def sha256BigSigma0 (x : Nat) : Nat := rotr32 2 x ^^^ rotr32 13 x ^^^ rotr32 22 x

def sha256BigSigma1 (x : Nat) : Nat := rotr32 6 x ^^^ rotr32 11 x ^^^ rotr32 25 x

/-- Extend a 16-word block by `k` further message-schedule words. -/
def sha256Extend : Nat → List Nat → List Nat
  | 0, ws => ws
  | k + 1, ws =>
    let i := ws.length
    let next := (sha256SmallSigma1 (ws.getD (i - 2) 0) + ws.getD (i - 7) 0
      + sha256SmallSigma0 (ws.getD (i - 15) 0) + ws.getD (i - 16) 0) % 2 ^ 32
    sha256Extend k (ws ++ [next])

/-- One SHA-256 round, consuming one (constant, schedule-word) pair. -/
def sha256Round (st : Hash8) (kw : Nat × Nat) : Hash8 :=
  let ch := (st.e &&& st.f) ^^^ ((st.e ^^^ (2 ^ 32 - 1)) &&& st.g)
  let maj := (st.a &&& st.b) ^^^ (st.a &&& st.c) ^^^ (st.b &&& st.c)
  let t1 := (st.h + sha256BigSigma1 st.e + ch + kw.1 + kw.2) % 2 ^ 32
  let t2 := (sha256BigSigma0 st.a + maj) % 2 ^ 32
  ⟨(t1 + t2) % 2 ^ 32, st.a, st.b, st.c, (st.d + t1) % 2 ^ 32, st.e, st.f, st.g⟩

/-- SHA-256 compression of one 16-word block. -/
def sha256Compress (st : Hash8) (block : List Nat) : Hash8 :=
  let w := sha256Extend 48 block
  let fin := (sha256K.zip w).foldl sha256Round st
  ⟨(st.a + fin.a) % 2 ^ 32, (st.b + fin.b) % 2 ^ 32, (st.c + fin.c) % 2 ^ 32,
    (st.d + fin.d) % 2 ^ 32, (st.e + fin.e) % 2 ^ 32, (st.f + fin.f) % 2 ^ 32,
    (st.g + fin.g) % 2 ^ 32, (st.h + fin.h) % 2 ^ 32⟩

/-- FIPS 180-4 padding: a 0x80 byte, zeros, then the 64-bit bit length. -/
def sha256Pad (m : List Nat) : List Nat :=
  let zeros := (120 - (m.length + 1) % 64) % 64
  m ++ [0x80] ++ List.replicate zeros 0 ++ natToBytesBE 8 (8 * m.length)

/-- Big-endian 4-byte words of a byte sequence. -/
def bytesToWords32 (l : List Nat) : List Nat :=
  (chunk 4 l).map (List.foldl (fun a b => a * 256 + b) 0)

/-- SHA-256 digest (32 bytes) of a byte sequence. -/
def sha256 (m : List Nat) : List Nat :=
  let h0 := sha256H0
  let init : Hash8 := ⟨h0.getD 0 0, h0.getD 1 0, h0.getD 2 0, h0.getD 3 0,
    h0.getD 4 0, h0.getD 5 0, h0.getD 6 0, h0.getD 7 0⟩
  let blocks := chunk 16 (bytesToWords32 (sha256Pad m))
  let st := blocks.foldl sha256Compress init
  natToBytesBE 4 st.a ++ natToBytesBE 4 st.b ++ natToBytesBE 4 st.c ++ natToBytesBE 4 st.d
    ++ natToBytesBE 4 st.e ++ natToBytesBE 4 st.f ++ natToBytesBE 4 st.g ++ natToBytesBE 4 st.h

theorem length_sha256 (m : List Nat) : (sha256 m).length = 32 := by
  simp [sha256, length_natToBytesBE]

/-! ### Wordlist -/

/-- Modelled from the spec: the English wordlist source file of the mnemonic
codec is not under `src/` (only its test suite is). The spec fixes a static
ordered table of 2048 unique words used by 11-bit index; the repository's test
vectors pin index 0 to `abandon`, index 3 to `about` (entropy `00…00`) and
index 2047 to `zoo` (entropy `ff…ff`). Those pinned entries are kept; the
remaining indices carry synthetic pairwise-distinct placeholder words, which
is faithful to every property in scope (the codec depends on the table only
through lookup/reverse-lookup). -/
def wordAt (i : Nat) : String :=
  if i = 0 then "abandon"
  else if i = 3 then "about"
  else if i = 2047 then "zoo"
  else String.mk ('x' :: List.replicate i 'i')

/-- Modelled from the spec: reverse lookup in the wordlist described at
`wordAt`; `none` for strings outside the table. -/
def wordToIndex (w : String) : Option Nat :=
  match w.data with
  | 'x' :: rest =>
    if rest.all (fun c => c == 'i') then
      let n := rest.length
      if n < 2048 && n != 0 && n != 3 && n != 2047 then some n else none
    else none
  | _ =>
    if w = "abandon" then some 0
    else if w = "about" then some 3
    else if w = "zoo" then some 2047
    else none

theorem wordToIndex_wordAt (i : Nat) (hi : i < 2048) : wordToIndex (wordAt i) = some i := by
  by_cases h0 : i = 0
  · subst h0
    decide
  by_cases h3 : i = 3
  · subst h3
    decide
  by_cases h2047 : i = 2047
  · subst h2047
    decide
  have hw : wordAt i = ⟨'x' :: List.replicate i 'i'⟩ := by
    simp [wordAt, h0, h3, h2047]
  rw [hw]
  have hall : (List.replicate i 'i').all (fun c => c == 'i') = true := by
    simp [List.all_eq_true]
  simp [wordToIndex, hall, List.length_replicate, hi, h0, h3, h2047]

/-! ### Mnemonic codec -/

/-- Errors of the mnemonic codec. `wordNotFound` cannot occur on the
validated path (the validator only hands over words that are in the list). -/
inductive Bip39Error where
  | invalidLength
  | wordNotFound
  | invalidChecksum
deriving DecidableEq, Repr

/-- The entropy byte lengths accepted by `Bip39.encode`. -/
def validEntropyLengths : List Nat := [16, 20, 24, 28, 32]

/-- Modelled from the spec: `Bip39.encode` (the codec source file is not under
`src/`, only its test suite). Fails with `InvalidLength` unless the entropy
length is one of 16/20/24/28/32 bytes; otherwise appends the first
`length/32` bits (of the bit length) of the SHA-256 checksum to the entropy
bits, partitions into 11-bit groups and maps each group through the
wordlist in encoding order. -/
def bip39Encode (entropy : List Nat) : Except Bip39Error (List String) :=
  if entropy.length ∈ validEntropyLengths then
    let csLen := entropy.length * 8 / 32
    let bits := bytesToBits entropy ++ (bytesToBits (sha256 entropy)).take csLen
    .ok ((chunk 11 bits).map (fun g => wordAt (bitsToNat g)))
  else .error .invalidLength

/-- A mnemonic as the single string the repository's API exposes. -/
def bip39EncodeString (entropy : List Nat) : Except Bip39Error String :=
  (bip39Encode entropy).map (fun ws => String.intercalate " " ws)

/-- The index of every word, or `none` if some word is not in the list. -/
def wordIndices : List String → Option (List Nat)
  | [] => some []
  | w :: rest =>
    match wordToIndex w, wordIndices rest with
    | some i, some is => some (i :: is)
    | _, _ => none

/-- Modelled from the spec: `Bip39.decode`. Looks up each word's 11-bit
index, concatenates the groups, splits off the trailing `length/33` checksum
bits, recomputes the SHA-256-derived checksum over the entropy bits and fails
with `InvalidChecksum` on mismatch. -/
def bip39Decode (ws : List String) : Except Bip39Error (List Nat) :=
  match wordIndices ws with
  | none => .error .wordNotFound
  | some idxs =>
    let bits := (idxs.map (natToBitsBE 11)).flatten
    let csLen := bits.length / 33
    let entBits := bits.length - csLen
    let entropy := (chunk 8 (bits.take entBits)).map bitsToNat
    let checksum := bits.drop entBits
    let expected := (bytesToBits (sha256 entropy)).take csLen
    if checksum = expected then .ok entropy else .error .invalidChecksum

theorem wordIndices_map_wordAt (idxs : List Nat) (h : ∀ i ∈ idxs, i < 2048) :
    wordIndices (idxs.map wordAt) = some idxs := by
  induction idxs with
  | nil => rfl
  | cons i t ih =>
    simp only [List.map_cons, wordIndices]
    rw [wordToIndex_wordAt i (h i (by simp)), ih (fun j hj => h j (by simp [hj]))]

/-- Round-trip of the mnemonic codec: decoding an encoded entropy recovers it. -/
theorem bip39_decode_encode (e : List Nat) (hb : ∀ b ∈ e, b < 256)
    (hl : e.length ∈ validEntropyLengths) :
    ∀ ws, bip39Encode e = .ok ws → bip39Decode ws = .ok e := by
  intro ws hws
  obtain ⟨m, hL, hm1, hm8⟩ : ∃ m, e.length = 4 * m ∧ 1 ≤ m ∧ m ≤ 8 := by
    simp only [validEntropyLengths, List.mem_cons, List.not_mem_nil, or_false] at hl
    rcases hl with h | h | h | h | h
    · exact ⟨4, by omega⟩
    · exact ⟨5, by omega⟩
    · exact ⟨6, by omega⟩
    · exact ⟨7, by omega⟩
    · exact ⟨8, by omega⟩
  simp only [bip39Encode, if_pos hl] at hws
  set bits := bytesToBits e ++ (bytesToBits (sha256 e)).take (e.length * 8 / 32) with hbitsdef
  have hcs : e.length * 8 / 32 = m := by omega
  have hbe : (bytesToBits e).length = 32 * m := by
    rw [length_bytesToBits, hL]
    ring
  have hsha : (bytesToBits (sha256 e)).length = 256 := by
    rw [length_bytesToBits, length_sha256]
  have htake : ((bytesToBits (sha256 e)).take (e.length * 8 / 32)).length = m := by
    rw [List.length_take, hcs]
    omega
  have hbits : bits.length = 33 * m := by
    rw [hbitsdef, List.length_append, hbe, htake]
    ring
  have hglen : ∀ g ∈ chunk 11 bits, g.length = 11 := by
    apply chunk_length_of_dvd 11 (by omega) bits
    rw [hbits]
    exact ⟨3 * m, by ring⟩
  have hidx : ∀ i ∈ (chunk 11 bits).map bitsToNat, i < 2048 := by
    intro i hi
    obtain ⟨g, hg, rfl⟩ := List.mem_map.mp hi
    have := bitsToNat_lt g
    rw [hglen g hg] at this
    exact this
  have hws0 : ws = ((chunk 11 bits).map bitsToNat).map wordAt := by
    rw [List.map_map]
    exact (Except.ok.inj hws).symm
  subst hws0
  simp only [bip39Decode, wordIndices_map_wordAt _ hidx]
  have hback : ((chunk 11 bits).map bitsToNat).map (natToBitsBE 11) = chunk 11 bits := by
    rw [List.map_map]
    have hcong : ∀ g ∈ chunk 11 bits, (natToBitsBE 11 ∘ bitsToNat) g = id g := by
      intro g hg
      simp only [Function.comp_apply, id_eq]
      rw [← hglen g hg]
      exact natToBitsBE_bitsToNat g
    rw [List.map_congr_left hcong, List.map_id]
  rw [hback, flatten_chunk 11 (by omega) bits]
  have hcsLen : bits.length / 33 = m := by
    rw [hbits]
    omega
  rw [hcsLen]
  have hentBits : bits.length - m = 32 * m := by
    rw [hbits]
    omega
  rw [hentBits]
  have htakeEnt : bits.take (32 * m) = bytesToBits e := by
    rw [hbitsdef]
    exact List.take_left' hbe
  have hchunk8 : chunk 8 (bytesToBits e) = e.map (natToBitsBE 8) := by
    rw [bytesToBits]
    apply chunk_flatten_uniform 8 (by omega)
    intro g hg
    obtain ⟨b, _, rfl⟩ := List.mem_map.mp hg
    exact length_natToBitsBE 8 b
  have hent : (e.map (natToBitsBE 8)).map bitsToNat = e := by
    rw [List.map_map]
    have hcong : ∀ b ∈ e, (bitsToNat ∘ natToBitsBE 8) b = id b := by
      intro b hbmem
      simp only [Function.comp_apply, id_eq]
      rw [bitsToNat_natToBitsBE]
      exact Nat.mod_eq_of_lt (by have := hb b hbmem; omega)
    rw [List.map_congr_left hcong, List.map_id]
  have hdrop : bits.drop (32 * m) = (bytesToBits (sha256 e)).take (e.length * 8 / 32) := by
    rw [hbitsdef]
    exact List.drop_left' hbe
  rw [htakeEnt, hchunk8, hent, hdrop, hcs]
  rw [if_pos rfl]

set_option maxRecDepth 1000000 in
/-- C1: for every valid entropy (length in {16,20,24,28,32} bytes),
`Bip39.decode (Bip39.encode e) = e`; in particular the 16-byte all-zero
entropy encodes to the mnemonic
`abandon abandon abandon abandon abandon abandon abandon abandon abandon
abandon abandon about` and that mnemonic decodes back to 16 zero bytes. -/
theorem bip39_roundtrip_and_zero_vector :
    (∀ e : List Nat, (∀ b ∈ e, b < 256) → e.length ∈ validEntropyLengths →
      ∀ ws, bip39Encode e = .ok ws → bip39Decode ws = .ok e)
    ∧ bip39EncodeString (List.replicate 16 0)
        = .ok ("abandon abandon abandon abandon abandon abandon abandon abandon "
          ++ "abandon abandon abandon about")
    ∧ bip39Decode (List.replicate 11 "abandon" ++ ["about"])
        = .ok (List.replicate 16 0) := by
  refine ⟨bip39_decode_encode, ?_, ?_⟩
  · rfl
  · rfl

set_option maxRecDepth 1000000 in
/-- Witness for `bip39_roundtrip_and_zero_vector`: the round-trip statement
applied to the concrete all-zero 16-byte entropy. -/
theorem bip39_roundtrip_zero_witness :
    bip39Decode (List.replicate 11 "abandon" ++ ["about"]) = .ok (List.replicate 16 0) :=
  bip39_roundtrip_and_zero_vector.1 (List.replicate 16 0)
    (by simp) (by decide) (List.replicate 11 "abandon" ++ ["about"]) (by rfl)

/-- C7: `Bip39.encode` succeeds exactly on entropy lengths 16/20/24/28/32
bytes and fails with `InvalidLength` on every other length. -/
theorem bip39_encode_length_gate (e : List Nat) :
    (e.length ∈ validEntropyLengths → ∃ ws, bip39Encode e = .ok ws)
    ∧ (e.length ∉ validEntropyLengths → bip39Encode e = .error .invalidLength) := by
  constructor
  · intro h
    refine ⟨(chunk 11 (bytesToBits e
      ++ (bytesToBits (sha256 e)).take (e.length * 8 / 32))).map
        (fun g => wordAt (bitsToNat g)), ?_⟩
    simp [bip39Encode, if_pos h]
  · intro h
    simp [bip39Encode, h]

/-- Witness for `bip39_encode_length_gate`: a 17-byte entropy is rejected with
`InvalidLength` and a 16-byte entropy is accepted. -/
theorem bip39_encode_length_gate_witness :
    bip39Encode (List.replicate 17 0) = .error .invalidLength
    ∧ ∃ ws, bip39Encode (List.replicate 16 0) = .ok ws :=
  ⟨(bip39_encode_length_gate (List.replicate 17 0)).2 (by decide),
    (bip39_encode_length_gate (List.replicate 16 0)).1 (by decide)⟩

/-! ### Mnemonic validator (`EnglishMnemonic`) -/

/-- Errors of the mnemonic validator. `invalidWordCount` carries the
observed word count, which the error message must report. -/
inductive MnemonicError where
  | invalidFormat
  | invalidWordCount (got : Nat)
  | invalidChecksum
deriving DecidableEq, Repr

/-- Split a character list on every single space character (runs of spaces,
and leading/trailing spaces, produce empty words, as `String.split` does). -/
def splitSpaceAux : List Char → List Char → List String
  | [], acc => [String.mk acc.reverse]
  | c :: rest, acc =>
    if c = ' ' then String.mk acc.reverse :: splitSpaceAux rest []
    else splitSpaceAux rest (c :: acc)

/-- The space-separated words of a string. -/
def mnemonicWords (s : String) : List String := splitSpaceAux s.data []

/-- A single word is well-formed: nonempty, lowercase ASCII letters only. -/
def wordFormatOk (w : String) : Bool :=
  !w.data.isEmpty && w.data.all (fun c => decide ('a' ≤ c) && decide (c ≤ 'z'))

/-- Format check of the whole string (equivalent to the implementation's
regular expression: words of lowercase letters joined by single spaces,
no leading or trailing space). -/
def mnemonicFormatOk (s : String) : Bool := (mnemonicWords s).all wordFormatOk

/-- The word counts accepted by the validator. -/
def validWordCounts : List Nat := [12, 15, 18, 21, 24]

/-- Modelled from the spec: the `EnglishMnemonic` constructor (the validator
source file is not under `src/`, only its test suite). Validation order,
first failure winning: (1) spacing / character-set check, failing with
`InvalidFormat`; (2) word count in {12,15,18,21,24}, failing with
`InvalidWordCount` carrying the observed count; (3) wordlist membership and
checksum verification via the decode path, failing with `InvalidChecksum`. -/
def validateMnemonic (s : String) : Except MnemonicError (List String) :=
  let ws := mnemonicWords s
  if mnemonicFormatOk s then
    if ws.length ∈ validWordCounts then
      match bip39Decode ws with
      | .ok _ => .ok ws
      | .error _ => .error .invalidChecksum
    else .error (.invalidWordCount ws.length)
  else .error .invalidFormat

/-- C6: the validator applies its checks in a fixed order with the first
failure winning: format violations yield `InvalidFormat` regardless of word
count or checksum; otherwise a word count outside {12,15,18,21,24} yields
`InvalidWordCount` reporting the observed count; otherwise a string whose
words are all in the wordlist but which does not decode successfully yields
`InvalidChecksum`, not `InvalidFormat`. -/
theorem mnemonic_validation_order :
    (∀ s : String, mnemonicFormatOk s = false →
      validateMnemonic s = .error .invalidFormat)
    ∧ (∀ s : String, mnemonicFormatOk s = true →
        (mnemonicWords s).length ∉ validWordCounts →
        validateMnemonic s = .error (.invalidWordCount (mnemonicWords s).length))
    ∧ (∀ s : String, mnemonicFormatOk s = true →
        (mnemonicWords s).length ∈ validWordCounts →
        (∃ idxs, wordIndices (mnemonicWords s) = some idxs) →
        (∀ ent, bip39Decode (mnemonicWords s) ≠ .ok ent) →
        validateMnemonic s = .error .invalidChecksum) := by
  refine ⟨?_, ?_, ?_⟩
  · intro s hfmt
    simp [validateMnemonic, hfmt]
  · intro s hfmt hcount
    simp [validateMnemonic, hfmt, hcount]
  · intro s hfmt hcount hwords hfail
    obtain ⟨idxs, hidxs⟩ := hwords
    simp only [validateMnemonic, hfmt, if_true, if_pos hcount]
    cases hdec : bip39Decode (mnemonicWords s) with
    | ok ent => exact absurd hdec (hfail ent)
    | error err => rfl

set_option maxRecDepth 1000000 in
/-- Witness for `mnemonic_validation_order`: a leading space fails with
`InvalidFormat`; an 11-word string fails with `InvalidWordCount 11`; twelve
times `zoo` (all words in the list, checksum wrong) fails with
`InvalidChecksum`. -/
theorem mnemonic_validation_order_witness :
    validateMnemonic " zoo" = .error .invalidFormat
    ∧ validateMnemonic
        ("abandon abandon abandon abandon abandon abandon abandon abandon "
          ++ "abandon abandon about")
        = .error (.invalidWordCount 11)
    ∧ validateMnemonic "zoo zoo zoo zoo zoo zoo zoo zoo zoo zoo zoo zoo"
        = .error .invalidChecksum := by
  refine ⟨?_, ?_, ?_⟩
  · exact mnemonic_validation_order.1 " zoo" (by rfl)
  · exact mnemonic_validation_order.2.1
      ("abandon abandon abandon abandon abandon abandon abandon abandon "
        ++ "abandon abandon about") (by rfl) (by decide)
  · refine mnemonic_validation_order.2.2
      "zoo zoo zoo zoo zoo zoo zoo zoo zoo zoo zoo zoo" (by rfl) (by decide)
      ⟨List.replicate 12 2047, by rfl⟩ ?_
    intro ent hcon
    have h : bip39Decode
        (mnemonicWords "zoo zoo zoo zoo zoo zoo zoo zoo zoo zoo zoo zoo")
        = .error .invalidChecksum := by rfl
    rw [h] at hcon
    exact Except.noConfusion hcon

/-! ### SHA-512, HMAC and the PBKDF2 seed deriver -/

/-- SHA-512 round constants: first 64 bits of the fractional parts of the
cube roots of the first 80 primes. -/
def sha512K : List Nat :=
  (firstPrimes 80).map (fun p => cbrt (p * 2 ^ 192) % 2 ^ 64)

/-- SHA-512 initial hash: first 64 bits of the fractional parts of the
square roots of the first 8 primes. -/
def sha512H0 : List Nat :=
  (firstPrimes 8).map (fun p => isqrt (p * 2 ^ 128) % 2 ^ 64)

/-- 64-bit right rotation. -/
def rotr64 (n x : Nat) : Nat :=
  ((x >>> n) ||| (x <<< (64 - n))) % 2 ^ 64

def sha512SmallSigma0 (x : Nat) : Nat := rotr64 1 x ^^^ rotr64 8 x ^^^ (x >>> 7)

def sha512SmallSigma1 (x : Nat) : Nat := rotr64 19 x ^^^ rotr64 61 x ^^^ (x >>> 6)

def sha512BigSigma0 (x : Nat) : Nat := rotr64 28 x ^^^ rotr64 34 x ^^^ rotr64 39 x

def sha512BigSigma1 (x : Nat) : Nat := rotr64 14 x ^^^ rotr64 18 x ^^^ rotr64 41 x

/-- Extend a 16-word block by `k` further message-schedule words. -/
def sha512Extend : Nat → List Nat → List Nat
  | 0, ws => ws
  | k + 1, ws =>
    let i := ws.length
    let next := (sha512SmallSigma1 (ws.getD (i - 2) 0) + ws.getD (i - 7) 0
      + sha512SmallSigma0 (ws.getD (i - 15) 0) + ws.getD (i - 16) 0) % 2 ^ 64
    sha512Extend k (ws ++ [next])

/-- One SHA-512 round. -/
def sha512Round (st : Hash8) (kw : Nat × Nat) : Hash8 :=
  let ch := (st.e &&& st.f) ^^^ ((st.e ^^^ (2 ^ 64 - 1)) &&& st.g)
  let maj := (st.a &&& st.b) ^^^ (st.a &&& st.c) ^^^ (st.b &&& st.c)
  let t1 := (st.h + sha512BigSigma1 st.e + ch + kw.1 + kw.2) % 2 ^ 64
  let t2 := (sha512BigSigma0 st.a + maj) % 2 ^ 64
  ⟨(t1 + t2) % 2 ^ 64, st.a, st.b, st.c, (st.d + t1) % 2 ^ 64, st.e, st.f, st.g⟩

/-- SHA-512 compression of one 16-word block. -/
def sha512Compress (st : Hash8) (block : List Nat) : Hash8 :=
  let w := sha512Extend 64 block
  let fin := (sha512K.zip w).foldl sha512Round st
  ⟨(st.a + fin.a) % 2 ^ 64, (st.b + fin.b) % 2 ^ 64, (st.c + fin.c) % 2 ^ 64,
    (st.d + fin.d) % 2 ^ 64, (st.e + fin.e) % 2 ^ 64, (st.f + fin.f) % 2 ^ 64,
    (st.g + fin.g) % 2 ^ 64, (st.h + fin.h) % 2 ^ 64⟩

/-- FIPS 180-4 padding for SHA-512: a 0x80 byte, zeros, then the 128-bit bit
length. -/
def sha512Pad (m : List Nat) : List Nat :=
  let zeros := (240 - (m.length + 1) % 128) % 128
  m ++ [0x80] ++ List.replicate zeros 0 ++ natToBytesBE 16 (8 * m.length)

/-- Big-endian 8-byte words of a byte sequence. -/
def bytesToWords64 (l : List Nat) : List Nat :=
  (chunk 8 l).map (List.foldl (fun a b => a * 256 + b) 0)

/-- SHA-512 digest (64 bytes) of a byte sequence. -/
def sha512 (m : List Nat) : List Nat :=
  let h0 := sha512H0
  let init : Hash8 := ⟨h0.getD 0 0, h0.getD 1 0, h0.getD 2 0, h0.getD 3 0,
    h0.getD 4 0, h0.getD 5 0, h0.getD 6 0, h0.getD 7 0⟩
  let blocks := chunk 16 (bytesToWords64 (sha512Pad m))
  let st := blocks.foldl sha512Compress init
  natToBytesBE 8 st.a ++ natToBytesBE 8 st.b ++ natToBytesBE 8 st.c ++ natToBytesBE 8 st.d
    ++ natToBytesBE 8 st.e ++ natToBytesBE 8 st.f ++ natToBytesBE 8 st.g ++ natToBytesBE 8 st.h

theorem length_sha512 (m : List Nat) : (sha512 m).length = 64 := by
  simp [sha512, length_natToBytesBE]

/-- HMAC-SHA512 (RFC 2104, block size 128 bytes). -/
def hmacSha512 (key msg : List Nat) : List Nat :=
  let k0 := if 128 < key.length then sha512 key else key
  let kp := k0 ++ List.replicate (128 - k0.length) 0
  let ipad := kp.map (fun b => b ^^^ 0x36)
  let opad := kp.map (fun b => b ^^^ 0x5c)
  sha512 (opad ++ sha512 (ipad ++ msg))

theorem length_hmacSha512 (key msg : List Nat) : (hmacSha512 key msg).length = 64 :=
  length_sha512 _

/-- The PBKDF2 xor-accumulation: starting from `U₁` (in both the chain and
the accumulator), fold `k` further iterations of the pseudorandom function. -/
def pbkdf2Aux (password : List Nat) : Nat → List Nat → List Nat → List Nat
  | 0, _, acc => acc
  | k + 1, u, acc =>
    let u' := hmacSha512 password u
    pbkdf2Aux password k u' (List.zipWith (fun a b => a ^^^ b) acc u')

/-- PBKDF2 with HMAC-SHA512: derived-key length 64 bytes equals the PRF
output length, so a single block `T₁ = U₁ ⊕ … ⊕ U_c` is produced, with
`U₁ = PRF(password, salt ‖ INT(1))`. -/
def pbkdf2HmacSha512 (password salt : List Nat) (c : Nat) : List Nat :=
  let u1 := hmacSha512 password (salt ++ natToBytesBE 4 1)
  pbkdf2Aux password (c - 1) u1 u1

theorem length_pbkdf2Aux (password : List Nat) (k : Nat) :
    ∀ u acc, acc.length = 64 → (pbkdf2Aux password k u acc).length = 64 := by
  induction k with
  | zero =>
    intro u acc hacc
    exact hacc
  | succ n ih =>
    intro u acc hacc
    simp only [pbkdf2Aux]
    apply ih
    rw [List.length_zipWith, hacc, length_hmacSha512]
    rfl

/-- Standard UTF-8 encoding of one character. -/
def utf8EncodeCharBytes (c : Char) : List Nat :=
  let n := c.toNat
  if n < 0x80 then [n]
  else if n < 0x800 then
    [0xC0 ||| (n >>> 6), 0x80 ||| (n &&& 0x3F)]
  else if n < 0x10000 then
    [0xE0 ||| (n >>> 12), 0x80 ||| ((n >>> 6) &&& 0x3F), 0x80 ||| (n &&& 0x3F)]
  else
    [0xF0 ||| (n >>> 18), 0x80 ||| ((n >>> 12) &&& 0x3F), 0x80 ||| ((n >>> 6) &&& 0x3F),
      0x80 ||| (n &&& 0x3F)]

/-- The UTF-8 bytes of a string. -/
def utf8Bytes (s : String) : List Nat := (s.data.map utf8EncodeCharBytes).flatten

/-- Modelled from the spec: `Bip39.mnemonicToSeed` (the seed-deriver source
file is not under `src/`, only its test suite). A pure transform over
arbitrary text: PBKDF2 with HMAC-SHA512, 2048 iterations, salt
`"mnemonic" + passphrase`, producing exactly 64 bytes; it performs no
validation of the mnemonic text. -/
def mnemonicToSeed (mnemonicText passphrase : String) : List Nat :=
  pbkdf2HmacSha512 (utf8Bytes mnemonicText) (utf8Bytes ("mnemonic" ++ passphrase)) 2048

/-- Modelled from the spec: the one-argument form of `Bip39.mnemonicToSeed`,
whose omitted passphrase defaults to the empty string. -/
def mnemonicToSeedNoPassphrase (mnemonicText : String) : List Nat :=
  mnemonicToSeed mnemonicText ""

/-- C5: seed derivation is total and deterministic over arbitrary strings
(it is a pure function in this embedding, every input reaching a result):
for every mnemonic text and passphrase it returns exactly 64 bytes, and the
passphrase-less form coincides with the empty-string passphrase. -/
theorem mnemonic_to_seed_total (m p : String) :
    (mnemonicToSeed m p).length = 64
    ∧ mnemonicToSeedNoPassphrase m = mnemonicToSeed m "" := by
  constructor
  · apply length_pbkdf2Aux
    exact length_hmacSha512 _ _
  · rfl

/-! ### UserProfile keyring lifecycle

Shallow embedding of `src/unnamed/part_001` (`userprofile.ts`). Transactions,
public keys and signature bytes are opaque to the profile, so an unsigned
transaction is an opaque token (`Nat`) and the codec and keyring-entry
collaborators are records of pure functions, matching the deterministic
collaborator contracts of the spec. The `locked` observable is modelled by
the current value of its producer (`lockedState`). -/

/-- A public identity: the public key bundle it wraps. -/
structure PublicIdentity where
  pubkey : Nat
deriving DecidableEq, Repr

/-- A local identity: public key bundle plus an optional label. -/
structure LocalIdentity where
  pubkey : Nat
  label : Option String
deriving DecidableEq, Repr

/-- `FullSignature`: public key, nonce and signature bytes. -/
structure FullSignature where
  publicKey : Nat
  nonce : Nat
  signature : List Nat
deriving DecidableEq, Repr

/-- `SignedTransaction`: transaction, primary signature, other signatures. -/
structure SignedTransaction where
  transaction : Nat
  primarySignature : FullSignature
  otherSignatures : List FullSignature
deriving DecidableEq, Repr

/-- The `TxCodec` collaborator: a deterministic, pure function from
(transaction, nonce) to the bytes to sign. -/
structure TxCodec where
  bytesToSign : Nat → Nat → List Nat

/-- The `KeyringEntry` collaborator capability: create an identity, list
identities, produce a transaction signature for an identity, bytes and
chain id. -/
structure KeyringEntry where
  newIdentity : LocalIdentity
  identities : List LocalIdentity
  createTransactionSignature : PublicIdentity → List Nat → String → List Nat

/-- The entry's `setIdentityLabel`: relabel the matching identities. -/
def KeyringEntry.setLabel (e : KeyringEntry) (identity : PublicIdentity)
    (label : Option String) : KeyringEntry :=
  { e with identities := (e.identities.map (fun li =>
      if li.pubkey = identity.pubkey then { li with label := label } else li)) }

/-- Modelled from the spec for the parts outside `src/`: the Keyring source
file is absent, so its serialization is carried as the opaque versioned blob
the spec describes; `getEntries()` is the `entries` sequence in append
order. -/
structure Keyring where
  entries : List KeyringEntry
  serialization : String

/-- Modelled from the spec: constructing a `Keyring` from a serialization
blob (the deserialization internals are outside `src/`; the blob stays
opaque). -/
def keyringFromSerialization (s : String) : Keyring :=
  ⟨[], s⟩

/-- Errors surfaced by `UserProfile` operations. -/
inductive ProfileError where
  | profileLocked
  | entryNotFound (n : Nat)
  | missingField
deriving DecidableEq, Repr

/-- `UserProfile`: creation timestamp (as its canonical ISO text, the only
view the code uses), the exclusively owned keyring (`none` once locked) and
the current value of the `locked` observable. -/
structure UserProfile where
  createdAtIso : String
  keyring : Option Keyring
  lockedState : Bool

/-- The `UserProfile` constructor: stores the creation time, deserializes
the keyring and starts unlocked. -/
def UserProfile.make (createdAtIso keyringSerialization : String) : UserProfile :=
  ⟨createdAtIso, some (keyringFromSerialization keyringSerialization), false⟩

/-- `lock()`: drop the keyring reference and flip the observable to true. -/
def UserProfile.lock (p : UserProfile) : UserProfile :=
  { p with keyring := none, lockedState := true }

/-- `createIdentity(n)`. -/
def UserProfile.createIdentity (p : UserProfile) (n : Nat) :
    Except ProfileError LocalIdentity :=
  match p.keyring with
  | none => .error .profileLocked
  | some kr =>
    match kr.entries[n]? with
    | none => .error (.entryNotFound n)
    | some entry => .ok entry.newIdentity

/-- `setIdentityLabel(n, identity, label)`; the updated profile is returned
explicitly (state passing). -/
def UserProfile.setIdentityLabel (p : UserProfile) (n : Nat)
    (identity : PublicIdentity) (label : Option String) :
    Except ProfileError UserProfile :=
  match p.keyring with
  | none => .error .profileLocked
  | some kr =>
    match kr.entries[n]? with
    | none => .error (.entryNotFound n)
    | some entry =>
      .ok ⟨p.createdAtIso,
        some ⟨kr.entries.set n (entry.setLabel identity label), kr.serialization⟩,
        p.lockedState⟩

/-- `getIdentities(n)`. -/
def UserProfile.getIdentities (p : UserProfile) (n : Nat) :
    Except ProfileError (List LocalIdentity) :=
  match p.keyring with
  | none => .error .profileLocked
  | some kr =>
    match kr.entries[n]? with
    | none => .error (.entryNotFound n)
    | some entry => .ok entry.identities

/-- `signTransaction(n, identity, transaction, codec, nonce)`. -/
def UserProfile.signTransaction (p : UserProfile) (n : Nat)
    (identity : PublicIdentity) (transaction : Nat) (codec : TxCodec) (nonce : Nat) :
    Except ProfileError SignedTransaction :=
  match p.keyring with
  | none => .error .profileLocked
  | some kr =>
    match kr.entries[n]? with
    | none => .error (.entryNotFound n)
    | some entry =>
      let bytes := codec.bytesToSign transaction nonce
      let signature : FullSignature :=
        ⟨identity.pubkey, nonce, entry.createTransactionSignature identity bytes "chain!"⟩
      .ok ⟨transaction, signature, []⟩

/-- `appendSignature(n, identity, originalTransaction, codec, nonce)`. -/
def UserProfile.appendSignature (p : UserProfile) (n : Nat)
    (identity : PublicIdentity) (originalTransaction : SignedTransaction)
    (codec : TxCodec) (nonce : Nat) : Except ProfileError SignedTransaction :=
  match p.keyring with
  | none => .error .profileLocked
  | some kr =>
    match kr.entries[n]? with
    | none => .error (.entryNotFound n)
    | some entry =>
      let bytes := codec.bytesToSign originalTransaction.transaction nonce
      let newSignature : FullSignature :=
        ⟨identity.pubkey, nonce, entry.createTransactionSignature identity bytes "chain!"⟩
      .ok ⟨originalTransaction.transaction, originalTransaction.primarySignature,
        originalTransaction.otherSignatures ++ [newSignature]⟩

/-- The persisted key-value store collaborator. -/
abbrev Store := List (String × String)

def storageKeyCreatedAt : String := "created_at"

def storageKeyKeyring : String := "keyring"

/-- `get(key)`: the stored value, or not-found. -/
def Store.get (s : Store) (k : String) : Option String :=
  (s.find? (fun kv => kv.1 == k)).map (fun kv => kv.2)

/-- `put(key, value)`: replace any record under `key`. -/
def Store.put (s : Store) (k v : String) : Store :=
  s.filter (fun kv => kv.1 != k) ++ [(k, v)]

/-- `DatabaseUtils.clear`: remove every record. -/
def storeClear (_ : Store) : Store := []

/-- `storeIn(storage)`: fail when locked, otherwise clear the store and
write the two records (creation timestamp, keyring serialization). -/
def UserProfile.storeIn (p : UserProfile) (storage : Store) :
    Except ProfileError Store :=
  match p.keyring with
  | none => .error .profileLocked
  | some kr =>
    .ok (((storeClear storage).put storageKeyCreatedAt p.createdAtIso).put
      storageKeyKeyring kr.serialization)

/-- `loadFrom(storage)`: read the two records (creation timestamp first, as
the source does) and reconstruct an unlocked profile; a missing record
fails. -/
def UserProfile.loadFrom (storage : Store) : Except ProfileError UserProfile :=
  match Store.get storage storageKeyCreatedAt with
  | none => .error .missingField
  | some createdAt =>
    match Store.get storage storageKeyKeyring with
    | none => .error .missingField
    | some keyringSerialization => .ok (UserProfile.make createdAt keyringSerialization)

/-- C2: after `lock()` every operation (`createIdentity`, `setIdentityLabel`,
`getIdentities`, `signTransaction`, `appendSignature`, `storeIn`) fails with
`ProfileLocked`; when unlocked, the indexed operations fail with
`EntryNotFound` exactly when the index is out of range of the keyring's
entries; `lock()` itself never fails (it is a total function on profiles)
and is idempotent under repetition. -/
theorem userprofile_lock_and_entry_errors :
    (∀ p : UserProfile, (p.lock).keyring = none ∧ (p.lock).lockedState = true
      ∧ (p.lock).lock = p.lock)
    ∧ (∀ (p : UserProfile) (n : Nat) (identity : PublicIdentity)
        (label : Option String) (t : SignedTransaction) (tx : Nat)
        (codec : TxCodec) (nonce : Nat) (s : Store),
        (p.lock).createIdentity n = .error .profileLocked
        ∧ (p.lock).setIdentityLabel n identity label = .error .profileLocked
        ∧ (p.lock).getIdentities n = .error .profileLocked
        ∧ (p.lock).signTransaction n identity tx codec nonce = .error .profileLocked
        ∧ (p.lock).appendSignature n identity t codec nonce = .error .profileLocked
        ∧ (p.lock).storeIn s = .error .profileLocked)
    ∧ (∀ (p : UserProfile) (kr : Keyring), p.keyring = some kr →
        ∀ (n : Nat) (identity : PublicIdentity) (label : Option String)
          (t : SignedTransaction) (tx : Nat) (codec : TxCodec) (nonce : Nat),
          (p.createIdentity n = .error (.entryNotFound n) ↔ kr.entries.length ≤ n)
          ∧ (p.setIdentityLabel n identity label = .error (.entryNotFound n)
              ↔ kr.entries.length ≤ n)
          ∧ (p.getIdentities n = .error (.entryNotFound n) ↔ kr.entries.length ≤ n)
          ∧ (p.signTransaction n identity tx codec nonce = .error (.entryNotFound n)
              ↔ kr.entries.length ≤ n)
          ∧ (p.appendSignature n identity t codec nonce = .error (.entryNotFound n)
              ↔ kr.entries.length ≤ n)) := by
  refine ⟨fun p => ⟨rfl, rfl, rfl⟩, fun p n identity label t tx codec nonce s =>
    ⟨rfl, rfl, rfl, rfl, rfl, rfl⟩, ?_⟩
  intro p kr hkr n identity label t tx codec nonce
  refine ⟨?_, ?_, ?_, ?_, ?_⟩
  · simp only [UserProfile.createIdentity, hkr]
    cases h : kr.entries[n]? with
    | none => simp [List.getElem?_eq_none_iff.mp h]
    | some entry =>
      have hlt : n < kr.entries.length := (List.getElem?_eq_some_iff.mp h).1
      simp
      omega
  · simp only [UserProfile.setIdentityLabel, hkr]
    cases h : kr.entries[n]? with
    | none => simp [List.getElem?_eq_none_iff.mp h]
    | some entry =>
      have hlt : n < kr.entries.length := (List.getElem?_eq_some_iff.mp h).1
      simp
      omega
  · simp only [UserProfile.getIdentities, hkr]
    cases h : kr.entries[n]? with
    | none => simp [List.getElem?_eq_none_iff.mp h]
    | some entry =>
      have hlt : n < kr.entries.length := (List.getElem?_eq_some_iff.mp h).1
      simp
      omega
  · simp only [UserProfile.signTransaction, hkr]
    cases h : kr.entries[n]? with
    | none => simp [List.getElem?_eq_none_iff.mp h]
    | some entry =>
      have hlt : n < kr.entries.length := (List.getElem?_eq_some_iff.mp h).1
      simp
      omega
  · simp only [UserProfile.appendSignature, hkr]
    cases h : kr.entries[n]? with
    | none => simp [List.getElem?_eq_none_iff.mp h]
    | some entry =>
      have hlt : n < kr.entries.length := (List.getElem?_eq_some_iff.mp h).1
      simp
      omega

/-- Witness for `userprofile_lock_and_entry_errors`: a concrete freshly
created profile, locked and queried, and the unlocked empty-keyring profile
rejecting index 0 as out of range. -/
theorem userprofile_lock_witness :
    ((UserProfile.make "2018-01-01T00:00:00Z" "serialized").lock).createIdentity 0
      = .error .profileLocked
    ∧ ((UserProfile.make "2018-01-01T00:00:00Z" "serialized").createIdentity 0
      = .error (.entryNotFound 0)) := by
  constructor
  · exact (userprofile_lock_and_entry_errors.2.1 (UserProfile.make "2018-01-01T00:00:00Z"
      "serialized") 0 ⟨0⟩ none ⟨0, ⟨0, 0, []⟩, []⟩ 0 ⟨fun _ _ => []⟩ 0 []).1
  · exact ((userprofile_lock_and_entry_errors.2.2 (UserProfile.make "2018-01-01T00:00:00Z"
      "serialized") (keyringFromSerialization "serialized") rfl 0 ⟨0⟩ none
      ⟨0, ⟨0, 0, []⟩, []⟩ 0 ⟨fun _ _ => []⟩ 0).1).mpr (by simp [keyringFromSerialization])

/-- C3: on an unlocked profile with a valid entry index, `appendSignature`
returns a new `SignedTransaction` whose transaction and primary signature
equal the input's and whose other signatures are the input's, in order, with
exactly one new `FullSignature` binding the given nonce appended at the end;
the input value is untouched (the embedding is pure, the input is rebuilt
from its own fields). -/
theorem append_signature_frame (p : UserProfile) (kr : Keyring) (entry : KeyringEntry)
    (n : Nat) (identity : PublicIdentity) (t : SignedTransaction) (codec : TxCodec)
    (nonce : Nat) (hkr : p.keyring = some kr) (hentry : kr.entries[n]? = some entry) :
    ∃ newSig : FullSignature,
      p.appendSignature n identity t codec nonce
        = .ok ⟨t.transaction, t.primarySignature, t.otherSignatures ++ [newSig]⟩
      ∧ newSig.nonce = nonce := by
  refine ⟨⟨identity.pubkey, nonce,
    entry.createTransactionSignature identity
      (codec.bytesToSign t.transaction nonce) "chain!"⟩, ?_, rfl⟩
  simp [UserProfile.appendSignature, hkr, hentry]

/-- Witness for `append_signature_frame`: a concrete one-entry profile
appending to a transaction that already carries one co-signature. -/
theorem append_signature_frame_witness :
    ∃ newSig : FullSignature,
      UserProfile.appendSignature
          ⟨"t", some ⟨[⟨⟨5, none⟩, [], fun _ _ _ => [9]⟩], "s"⟩, false⟩
          0 ⟨5⟩ ⟨77, ⟨5, 1, [2]⟩, [⟨6, 2, [3]⟩]⟩ ⟨fun tx nonce => [tx, nonce]⟩ 42
        = .ok ⟨77, ⟨5, 1, [2]⟩, [⟨6, 2, [3]⟩] ++ [newSig]⟩
      ∧ newSig.nonce = 42 :=
  append_signature_frame ⟨"t", some ⟨[⟨⟨5, none⟩, [], fun _ _ _ => [9]⟩], "s"⟩, false⟩
    ⟨[⟨⟨5, none⟩, [], fun _ _ _ => [9]⟩], "s"⟩ ⟨⟨5, none⟩, [], fun _ _ _ => [9]⟩
    0 ⟨5⟩ ⟨77, ⟨5, 1, [2]⟩, [⟨6, 2, [3]⟩]⟩ ⟨fun tx nonce => [tx, nonce]⟩ 42 rfl rfl

/-- C4: on an unlocked profile with a valid entry index, `signTransaction`
returns a `SignedTransaction` whose transaction is the input, whose primary
signature carries the identity's public key, the exact nonce passed in, and
the signature the addressed entry produces over
`codec.bytesToSign(transaction, nonce)`, and whose other signatures are
empty. -/
theorem sign_transaction_result (p : UserProfile) (kr : Keyring) (entry : KeyringEntry)
    (n : Nat) (identity : PublicIdentity) (tx : Nat) (codec : TxCodec) (nonce : Nat)
    (hkr : p.keyring = some kr) (hentry : kr.entries[n]? = some entry) :
    p.signTransaction n identity tx codec nonce
      = .ok ⟨tx, ⟨identity.pubkey, nonce,
          entry.createTransactionSignature identity
            (codec.bytesToSign tx nonce) "chain!"⟩, []⟩ := by
  simp [UserProfile.signTransaction, hkr, hentry]

/-- Witness for `sign_transaction_result`: a concrete one-entry profile
signing a concrete transaction. -/
theorem sign_transaction_result_witness :
    UserProfile.signTransaction
        ⟨"t", some ⟨[⟨⟨5, none⟩, [], fun _ bytes _ => 7 :: bytes⟩], "s"⟩, false⟩
        0 ⟨5⟩ 77 ⟨fun tx nonce => [tx, nonce]⟩ 42
      = .ok ⟨77, ⟨5, 42, [7, 77, 42]⟩, []⟩ :=
  sign_transaction_result ⟨"t", some ⟨[⟨⟨5, none⟩, [], fun _ bytes _ => 7 :: bytes⟩], "s"⟩,
      false⟩
    ⟨[⟨⟨5, none⟩, [], fun _ bytes _ => 7 :: bytes⟩], "s"⟩
    ⟨⟨5, none⟩, [], fun _ bytes _ => 7 :: bytes⟩
    0 ⟨5⟩ 77 ⟨fun tx nonce => [tx, nonce]⟩ 42 rfl rfl

/-- C10: both signing paths pass the fixed constant chain id `chain!` to the
entry's `createTransactionSignature`, independently of transaction,
identity, nonce and every other caller input: the produced signature bytes
are exactly the entry's output at chain id `chain!`. -/
theorem chain_id_constant (p : UserProfile) (kr : Keyring) (entry : KeyringEntry)
    (n : Nat) (identity : PublicIdentity) (tx : Nat) (t : SignedTransaction)
    (codec : TxCodec) (nonce : Nat)
    (hkr : p.keyring = some kr) (hentry : kr.entries[n]? = some entry) :
    (p.signTransaction n identity tx codec nonce).map
        (fun st => st.primarySignature.signature)
      = .ok (entry.createTransactionSignature identity
          (codec.bytesToSign tx nonce) "chain!")
    ∧ (p.appendSignature n identity t codec nonce).map
        (fun st => st.otherSignatures.getLast?)
      = .ok (some ⟨identity.pubkey, nonce,
          entry.createTransactionSignature identity
            (codec.bytesToSign t.transaction nonce) "chain!"⟩) := by
  constructor
  · simp [UserProfile.signTransaction, hkr, hentry, Except.map]
  · simp [UserProfile.appendSignature, hkr, hentry, Except.map, List.getLast?_concat]

/-- Witness for `chain_id_constant`: concrete profile whose entry echoes the
chain id into the signature bytes, making the constant observable. -/
theorem chain_id_constant_witness :
    (UserProfile.signTransaction
        ⟨"t", some ⟨[⟨⟨5, none⟩, [], fun _ _ chainId => [chainId.length]⟩], "s"⟩, false⟩
        0 ⟨5⟩ 77 ⟨fun _ _ => []⟩ 42).map (fun st => st.primarySignature.signature)
      = .ok [6] :=
  (chain_id_constant
    ⟨"t", some ⟨[⟨⟨5, none⟩, [], fun _ _ chainId => [chainId.length]⟩], "s"⟩, false⟩
    ⟨[⟨⟨5, none⟩, [], fun _ _ chainId => [chainId.length]⟩], "s"⟩
    ⟨⟨5, none⟩, [], fun _ _ chainId => [chainId.length]⟩
    0 ⟨5⟩ 77 ⟨0, ⟨0, 0, []⟩, []⟩ ⟨fun _ _ => []⟩ 42 rfl rfl).1

/-- C8: on an unlocked profile `storeIn` clears the target store and writes
exactly the two records (creation timestamp under the created-at key,
keyring serialization under the keyring key); every other key then reports
not-found, whatever the store held before. On a locked profile it fails
with `ProfileLocked` and returns no store. -/
theorem store_in_overwrite :
    (∀ (p : UserProfile) (s : Store), p.keyring = none →
      p.storeIn s = .error .profileLocked)
    ∧ (∀ (p : UserProfile) (kr : Keyring) (s : Store), p.keyring = some kr →
        ∃ s' : Store, p.storeIn s = .ok s'
          ∧ Store.get s' storageKeyCreatedAt = some p.createdAtIso
          ∧ Store.get s' storageKeyKeyring = some kr.serialization
          ∧ ∀ k, k ≠ storageKeyCreatedAt → k ≠ storageKeyKeyring →
              Store.get s' k = none) := by
  constructor
  · intro p s hkr
    simp [UserProfile.storeIn, hkr]
  · intro p kr s hkr
    refine ⟨[(storageKeyCreatedAt, p.createdAtIso), (storageKeyKeyring, kr.serialization)],
      ?_, ?_, ?_, ?_⟩
    · simp [UserProfile.storeIn, hkr, Store.put, storeClear, storageKeyCreatedAt,
        storageKeyKeyring]
    · simp [Store.get, List.find?]
    · simp [Store.get, List.find?, storageKeyCreatedAt, storageKeyKeyring]
    · intro k hka hkb
      have h1 : (storageKeyCreatedAt == k) = false := by
        simp [storageKeyCreatedAt]
        exact fun hcon => hka hcon.symm
      have h2 : (storageKeyKeyring == k) = false := by
        simp [storageKeyKeyring]
        exact fun hcon => hkb hcon.symm
      simp [Store.get, List.find?, h1, h2]

/-- Witness for `store_in_overwrite`: the concrete profile of the test suite
stored into a store that already holds the unrelated key `foo`, which is
cleared; and the locked profile failing. -/
theorem store_in_overwrite_witness :
    UserProfile.storeIn ((UserProfile.make "2018" "ser").lock) [("foo", "bar")]
        = .error .profileLocked
    ∧ ∃ s' : Store, UserProfile.storeIn (UserProfile.make "2018" "ser") [("foo", "bar")]
        = .ok s'
        ∧ Store.get s' storageKeyCreatedAt = some "2018"
        ∧ Store.get s' storageKeyKeyring = some "ser"
        ∧ ∀ k, k ≠ storageKeyCreatedAt → k ≠ storageKeyKeyring → Store.get s' k = none :=
  ⟨store_in_overwrite.1 ((UserProfile.make "2018" "ser").lock) [("foo", "bar")] rfl,
    store_in_overwrite.2 (UserProfile.make "2018" "ser")
      (keyringFromSerialization "ser") [("foo", "bar")] rfl⟩

/-- C9: `loadFrom` fails with `MissingField` exactly when the created-at
record or the keyring record is absent; when both are present it returns the
unlocked profile reconstructed from the two records. -/
theorem load_from_reconstructs (s : Store) :
    ((UserProfile.loadFrom s = .error .missingField) ↔
      (Store.get s storageKeyCreatedAt = none ∨ Store.get s storageKeyKeyring = none))
    ∧ (∀ c k, Store.get s storageKeyCreatedAt = some c →
        Store.get s storageKeyKeyring = some k →
        UserProfile.loadFrom s = .ok ⟨c, some (keyringFromSerialization k), false⟩) := by
  constructor
  · cases h1 : Store.get s storageKeyCreatedAt with
    | none => simp [UserProfile.loadFrom, h1]
    | some c =>
      cases h2 : Store.get s storageKeyKeyring with
      | none => simp [UserProfile.loadFrom, h1, h2]
      | some k => simp [UserProfile.loadFrom, h1, h2, UserProfile.make]
  · intro c k h1 h2
    simp [UserProfile.loadFrom, h1, h2, UserProfile.make]

/-- Witness for `load_from_reconstructs`: the empty store is missing both
records and fails; a two-record store reconstructs the unlocked profile. -/
theorem load_from_reconstructs_witness :
    UserProfile.loadFrom [] = .error .missingField
    ∧ UserProfile.loadFrom [(storageKeyCreatedAt, "2018"), (storageKeyKeyring, "ser")]
        = .ok ⟨"2018", some (keyringFromSerialization "ser"), false⟩ :=
  ⟨(load_from_reconstructs []).1.mpr (Or.inl rfl),
    (load_from_reconstructs [(storageKeyCreatedAt, "2018"), (storageKeyKeyring, "ser")]).2
      "2018" "ser" rfl (by simp [Store.get, List.find?, storageKeyCreatedAt, storageKeyKeyring])⟩

end IovCore
